import Mathlib

/-!
Verification of the lint381 core: the token-pattern matcher
(`lint381/matcher/__init__.py`, with the legacy flat module
`lint381/matcher.py` modelled alongside) and the C/C++ tokenizer
(`lint381/tokenizer.py`).

Tokens are modelled abstractly for the matcher (any type `α` with boolean
predicates, matching the Python functions `start`/`end`), and concretely for
the tokenizer (source text as `List Char`).  Python list slicing
`xs[a:b]` is `pySlice xs a b`.  Matches are tracked as inclusive index
spans `(start, end)`; the Python generator's yielded sublists
`tokens[i:j+1]` are recovered by slicing with the span.
-/

namespace Lint381

/-- Python list slicing `xs[a:b]` (for `a ≤ b`, both clipped to the list
length, which is the only way the sources use it). -/
def pySlice {α : Type} (xs : List α) (a b : Nat) : List α :=
  (xs.drop a).take (b - a)

namespace Matcher

variable {α : Type}

/-- The inner `for j, end_token in enumerate(tokens[i:], i)` loop of the
general search in `match_tokens` (`matcher/__init__.py` lines 85-103 and
identically `matcher.py` lines 70-90).  `i` is the provisional span start
(re-armed to `j` whenever `start` matches), `rem` is the remaining slice of
the token list and `j` the index of its first element.  Returns
`Sum.inl (i', j)` when a token satisfying `end` is found (`i'` the re-armed
span start, `j` its index), and `Sum.inr i'` when the slice is exhausted
(`i'` the last re-armed value of `i`, which the source then increments). -/
def scanEndAux (start_ end_ : α → Bool) : Nat → List α → Nat → (Nat × Nat) ⊕ Nat
  | i, [], _ => Sum.inr i
  | i, t :: rest, j =>
    let i' := if start_ t then j else i
    if end_ t then Sum.inl (i', j) else scanEndAux start_ end_ i' rest (j + 1)

/-- The inner scan started at index `i` of `tokens`, as the source does with
`enumerate(tokens[i:], i)`. -/
def scanEnd (start_ end_ : α → Bool) (tokens : List α) (i : Nat) : (Nat × Nat) ⊕ Nat :=
  scanEndAux start_ end_ i (tokens.drop i) i

theorem scanEndAux_inl_ge (start_ end_ : α → Bool) :
    ∀ (i : Nat) (rem : List α) (j : Nat) (s e : Nat),
      scanEndAux start_ end_ i rem j = Sum.inl (s, e) → j ≤ e := by
  intro i rem
  induction rem generalizing i with
  | nil => intro j s e h; simp [scanEndAux] at h
  | cons t rest ih =>
    intro j s e h
    simp only [scanEndAux] at h
    split at h
    · simp only [Sum.inl.injEq, Prod.mk.injEq] at h
      omega
    · have := ih _ _ _ _ h
      omega

theorem scanEndAux_inr_ge (start_ end_ : α → Bool) :
    ∀ (i : Nat) (rem : List α) (j : Nat) (r : Nat), i ≤ j →
      scanEndAux start_ end_ i rem j = Sum.inr r → i ≤ r := by
  intro i rem
  induction rem generalizing i with
  | nil =>
    intro j r hij h
    simp only [scanEndAux, Sum.inr.injEq] at h
    omega
  | cons t rest ih =>
    intro j r hij h
    simp only [scanEndAux] at h
    split at h
    · simp at h
    · split at h
      · exact le_trans hij (ih _ _ _ (by omega) h)
      · exact ih _ _ _ (by omega) h

/-- The outer `while i < len(tokens)` loop of `match_tokens` in its general
(no fixed length) mode, `matcher/__init__.py` lines 65-104 with the
`length is not None` branch removed, starting at index `i`.  When the inner
scan finds an end token at index `e` (re-armed start `s`), the source sets
`j += lookahead`, yields `tokens[i:j + 1]` when `j < len(tokens)`, sets
`i = j` and breaks, after which the outer loop increments `i` — hence the
recursive call at `e + lookahead + 1`.  When the inner scan exhausts the
list, `i` holds its last re-armed value and the outer loop increments it. -/
def matchSpansFrom (start_ end_ : α → Bool) (lookahead : Nat) (tokens : List α)
    (i : Nat) : List (Nat × Nat) :=
  if h : i < tokens.length then
    if start_ (tokens.get ⟨i, h⟩) then
      match hscan : scanEnd start_ end_ tokens i with
      | Sum.inl (s, e) =>
        let j := e + lookahead
        (if j < tokens.length then [(s, j)] else []) ++
          matchSpansFrom start_ end_ lookahead tokens (j + 1)
      | Sum.inr i2 => matchSpansFrom start_ end_ lookahead tokens (i2 + 1)
    else matchSpansFrom start_ end_ lookahead tokens (i + 1)
  else []
termination_by tokens.length - i
decreasing_by
  · have := scanEndAux_inl_ge start_ end_ i (tokens.drop i) i s e hscan
    omega
  · have := scanEndAux_inr_ge start_ end_ i (tokens.drop i) i i2 (le_refl i) hscan
    omega
  · omega

/-- The outer `while` loop of `match_tokens` in its exact-length mode,
`matcher/__init__.py` lines 69-83: for each `i` whose token satisfies
`start`, the candidate end index is `j = i + length - 1`; an `IndexError`
on `tokens[j]` breaks out of the whole loop; otherwise the span
`(i, j + lookahead)` is yielded when `end` accepts `tokens[j]` and
`j + lookahead < len(tokens)`; in every non-breaking case `i` then
advances by one.  (Modelled for `length ≥ 1`, which every call in the
repository satisfies; Python's negative-index wrap-around for a
non-positive `length` is not modelled, and the claims below hypothesize
`1 ≤ length`.) -/
def matchFixedSpansFrom (start_ end_ : α → Bool) (length lookahead : Nat)
    (tokens : List α) (i : Nat) : List (Nat × Nat) :=
  if h : i < tokens.length then
    if start_ (tokens.get ⟨i, h⟩) then
      -- the source's `j = i + length - 1` and `end_index = j + lookahead`
      -- are written out inline below
      if hj : i + length - 1 < tokens.length then
        (if end_ (tokens.get ⟨i + length - 1, hj⟩) ∧
            i + length - 1 + lookahead < tokens.length
         then [(i, i + length - 1 + lookahead)] else []) ++
          matchFixedSpansFrom start_ end_ length lookahead tokens (i + 1)
      else []
    else matchFixedSpansFrom start_ end_ length lookahead tokens (i + 1)
  else []
termination_by tokens.length - i

/-- Declarative (specification-side) description of one probe of the
exact-length mode at index `k`: emit `(k, k + length - 1 + lookahead)` when
the token at `k` satisfies `start`, the token at `k + length - 1` exists and
satisfies `end`, and the lookahead-extended end index is in range.  Stated
from the spec's words; compared against `matchFixedSpansFrom` below. -/
def fixedEmit (start_ end_ : α → Bool) (length lookahead : Nat)
    (tokens : List α) (k : Nat) : Option (Nat × Nat) :=
  if hk : k < tokens.length ∧ k + length - 1 < tokens.length then
    (if start_ (tokens.get ⟨k, hk.1⟩) = true ∧
        end_ (tokens.get ⟨k + length - 1, hk.2⟩) = true ∧
        k + length - 1 + lookahead < tokens.length
     then some (k, k + length - 1 + lookahead) else none)
  else none

/-- `match_tokens` of `lint381/matcher/__init__.py` (the module the package
actually imports: the directory shadows the flat `matcher.py` on import),
with results as inclusive index spans.  `end` defaults to `start` when not
provided (source lines 62-63). -/
def matchSpans (tokens : List α) (start_ : α → Bool) (end? : Option (α → Bool))
    (lookahead : Nat) (length? : Option Nat) : List (Nat × Nat) :=
  let end_ := end?.getD start_
  match length? with
  | some length => matchFixedSpansFrom start_ end_ length lookahead tokens 0
  | none => matchSpansFrom start_ end_ lookahead tokens 0

/-- `match_tokens` of `lint381/matcher/__init__.py`, yielding the token
sublists `tokens[i:j + 1]` exactly as the Python generator does. -/
def match_tokens (tokens : List α) (start_ : α → Bool) (end? : Option (α → Bool))
    (lookahead : Nat) (length? : Option Nat) : List (List α) :=
  (matchSpans tokens start_ end? lookahead length?).map
    (fun p => pySlice tokens p.1 (p.2 + 1))

/-- `match_tokens` of the legacy flat module `lint381/matcher.py` (shadowed
by the `matcher/` package on import).  It differs from the package version
in two ways (lines 47-49 and 55-68): with `length` given it first runs
`assert length > 0` and `assert not lookahead, "Lookahead not implemented
for length != 0"` — modelled as `Except.error` carrying the assertion
message, raised before any token is scanned — and its exact-length branch
yields `tokens[i:j + 1]` with no lookahead extension, which (given the
asserted `lookahead = 0`) is `matchFixedSpansFrom` at lookahead `0`.
The general branch (lines 70-90) is textually identical to the package's. -/
def legacy_match_tokens (tokens : List α) (start_ : α → Bool)
    (end? : Option (α → Bool)) (lookahead : Nat) (length? : Option Nat) :
    Except String (List (Nat × Nat)) :=
  let end_ := end?.getD start_
  match length? with
  | some length =>
    if 0 < length then
      if lookahead = 0 then
        Except.ok (matchFixedSpansFrom start_ end_ length 0 tokens 0)
      else Except.error "Lookahead not implemented for length != 0"
    else Except.error "assert length > 0 failed"
  | none => Except.ok (matchSpansFrom start_ end_ lookahead tokens 0)

/-- A second definition that follows the specification's words for the
general search, claim C2 ("Resume scanning for the next match starting
immediately after the un-extended end index"): identical to
`matchSpansFrom` except that after a candidate with un-extended end `e` the
scan resumes at `e + 1` instead of the source's `e + lookahead + 1`.
Defined only to be compared against the source's behaviour. -/
def matchSpansFromResumeUnextended (start_ end_ : α → Bool) (lookahead : Nat)
    (tokens : List α) (i : Nat) : List (Nat × Nat) :=
  if h : i < tokens.length then
    if start_ (tokens.get ⟨i, h⟩) then
      match hscan : scanEnd start_ end_ tokens i with
      | Sum.inl (s, e) =>
        (if e + lookahead < tokens.length then [(s, e + lookahead)] else []) ++
          matchSpansFromResumeUnextended start_ end_ lookahead tokens (e + 1)
      | Sum.inr i2 => matchSpansFromResumeUnextended start_ end_ lookahead tokens (i2 + 1)
    else matchSpansFromResumeUnextended start_ end_ lookahead tokens (i + 1)
  else []
termination_by tokens.length - i
decreasing_by
  · have := scanEndAux_inl_ge start_ end_ i (tokens.drop i) i s e hscan
    omega
  · have := scanEndAux_inr_ge start_ end_ i (tokens.drop i) i i2 (le_refl i) hscan
    omega
  · omega

end Matcher

namespace Tokenizer

deriving instance DecidableEq for Except

/-- `Position` of `lint381/tokenizer.py`: a row/column pair, both
zero-indexed. -/
structure Position where
  row : Nat
  column : Nat
deriving DecidableEq

/-- `Token` of `lint381/tokenizer.py`: a token type (the pattern-group
name), its exact source substring, and the inclusive positions of its first
and last characters.  The source field `end` is a Lean keyword and is
written `«end»` here. -/
structure Token where
  type : String
  value : List Char
  start : Position
  «end» : Position
deriving DecidableEq

/-- The three `ValueError`s `_Tokenizer` can raise, each carrying the
cursor position interpolated into the Python message ("Couldn't parse token
at ...", "Unterminated string literal at ...", "Unterminated multiline
comment at ..."). -/
inductive TokenizeError where
  | unlexable (pos : Position)
  | unterminatedStringLiteral (pos : Position)
  | unterminatedComment (pos : Position)
deriving DecidableEq

/-- The mutable state of `_Tokenizer`: the underlying string (with the
dummy `"\n"` already appended), the cursor, and the row/column the cursor
is at. -/
structure TokenizerState where
  string : List Char
  cursor : Nat
  row : Nat
  column : Nat
deriving DecidableEq

/-- Python `str.isspace` restricted to the ASCII whitespace characters
(the tokenizer's inputs; tabs are rejected up front by `tokenize`). -/
def pyIsSpace (c : Char) : Bool :=
  c == ' ' || c == '\t' || c == '\n' || c == '\r' || c == '\x0b' || c == '\x0c'

/-- `_Tokenizer._position` (its sanity assertions on row/column bounds,
which cannot fire on reachable states, are omitted). -/
def positionOf (st : TokenizerState) : Position :=
  ⟨st.row, st.column⟩

/-- `_Tokenizer._advance_cursor`: consuming a newline moves to the start of
the next row; any other character advances the column.  (Total here via
`get?`; the source only ever calls it with the cursor in bounds.) -/
def advanceCursor (st : TokenizerState) : TokenizerState :=
  if st.string.get? st.cursor = some '\n' then
    { string := st.string, cursor := st.cursor + 1, row := st.row + 1, column := 0 }
  else
    { string := st.string, cursor := st.cursor + 1, row := st.row,
      column := st.column + 1 }

theorem advanceCursor_string (st : TokenizerState) :
    (advanceCursor st).string = st.string := by
  rw [advanceCursor]; split <;> rfl

theorem advanceCursor_cursor (st : TokenizerState) :
    (advanceCursor st).cursor = st.cursor + 1 := by
  rw [advanceCursor]; split <;> rfl

/-- The `for _ in range(len(value) - 1): self._advance_cursor()` loop. -/
def advanceCursorN : Nat → TokenizerState → TokenizerState
  | 0, st => st
  | n + 1, st => advanceCursorN n (advanceCursor st)

theorem advanceCursorN_string (n : Nat) :
    ∀ st : TokenizerState, (advanceCursorN n st).string = st.string := by
  induction n with
  | zero => intro st; rfl
  | succ n ih =>
    intro st
    rw [advanceCursorN, ih, advanceCursor_string]

theorem advanceCursorN_cursor (n : Nat) :
    ∀ st : TokenizerState, (advanceCursorN n st).cursor = st.cursor + n := by
  induction n with
  | zero => intro st; rfl
  | succ n ih =>
    intro st
    rw [advanceCursorN, ih, advanceCursor_cursor]
    omega

/-- Character class `[_a-zA-Z]` (start of an identifier). -/
def isIdentStartChar (c : Char) : Bool :=
  c == '_' || c.isAlpha

/-- Character class `[_a-zA-Z0-9]` (identifier continuation). -/
def isIdentChar (c : Char) : Bool :=
  c == '_' || c.isAlphanum

/-- Ordered regex alternation of literal words: Python `re` tries the
alternatives left to right and commits to the first that matches at the
current position.  `none` when no alternative is a prefix of `s`. -/
def firstPrefixMatch (alts : List (List Char)) (s : List Char) :
    Option (List Char) :=
  alts.find? (fun a => a.isPrefixOf s)

/-- The keyword alternation, in source order (note `do` precedes `double`:
the regex therefore never matches more than `do` on input `double`, and the
longer identifier match wins the maximal-munch comparison instead). -/
def keywords : List (List Char) :=
  ["auto", "break", "case", "char", "const", "continue", "default", "do",
   "double", "else", "enum", "extern", "float", "for", "goto", "if", "int",
   "long", "register", "return", "short", "signed", "sizeof", "static",
   "struct", "switch", "typedef", "union", "unsigned", "void", "volatile",
   "while"].map String.toList

/-- Pattern `[0-9]+(\.?[0-9]*)`: one or more digits, then greedily an
optional decimal point with more digits. -/
def pattern_number (s : List Char) : Option (List Char) :=
  let ds := s.takeWhile Char.isDigit
  if ds.isEmpty then none
  else
    match s.drop ds.length with
    | '.' :: r2 => some (ds ++ '.' :: r2.takeWhile Char.isDigit)
    | _ => some ds

/-- Pattern `(auto | break | ... | while)`. -/
def pattern_keyword (s : List Char) : Option (List Char) :=
  firstPrefixMatch keywords s

/-- Pattern `[#]?[_a-zA-Z]([_a-zA-Z0-9]+)?`: optionally a leading `#`, then
an identifier-start character, then greedily any further identifier
characters.  When `#` is present but not followed by an identifier-start
character the regex backtracks to dropping the `#`, which then itself fails
the `[_a-zA-Z]` class — hence `none`. -/
def pattern_identifier (s : List Char) : Option (List Char) :=
  match s with
  | [] => none
  | c :: rest =>
    if c = '#' then
      -- `#` consumed; `[_a-zA-Z]` must match next.  If it does not, the
      -- regex backtracks to the empty `[#]?` alternative, where `#` itself
      -- fails `[_a-zA-Z]` — so the pattern fails outright.
      match rest with
      | [] => none
      | c2 :: rest2 =>
        if isIdentStartChar c2 then
          some ('#' :: c2 :: rest2.takeWhile isIdentChar)
        else none
    else if isIdentStartChar c then some (c :: rest.takeWhile isIdentChar)
    else none

/-- Pattern `//.+`: two slashes followed by at least one character other
than a newline (Python `.` does not match `\n`), extending greedily to the
end of the line. -/
def pattern_comment (s : List Char) : Option (List Char) :=
  match s with
  | '/' :: '/' :: c :: rest =>
    if c == '\n' then none
    else some ('/' :: '/' :: (c :: rest).takeWhile (fun ch => ch != '\n'))
  | _ => none

/-- Pattern `(\+\+ | -- | ! | ~)`. -/
def pattern_unary (s : List Char) : Option (List Char) :=
  firstPrefixMatch [['+', '+'], ['-', '-'], ['!'], ['~']] s

/-- The two-character operator pattern, alternative by alternative as the
verbose regex actually parses: the source is missing a `|` after `>=`, so
`>=` and `+=` fuse into the single four-character alternative `>=+=` (neither
`>=` nor `+=` alone can ever match this pattern), and the final `|` before
the closing parenthesis adds an empty alternative that matches everywhere
(its empty match is discarded later by the `if value` filter). -/
def pattern_binary2 (s : List Char) : Option (List Char) :=
  firstPrefixMatch
    [['=', '='], ['!', '='], ['<', '='], ['>', '=', '+', '='], ['-', '='],
     ['*', '='], ['/', '='], ['%', '='], ['&', '&'], ['|', '|'],
     ['<', '<', '='], ['>', '>', '='], ['&', '='], ['|', '='], ['^', '='],
     ['<', '<'], ['>', '>'], []] s

/-- The one-character operator class `[+\-*/%^&|<>=]`. -/
def pattern_binary1 (s : List Char) : Option (List Char) :=
  match s with
  | c :: _ =>
    if c ∈ ['+', '-', '*', '/', '%', '^', '&', '|', '<', '>', '=']
    then some [c] else none
  | [] => none

/-- The grouping pattern `(\( | \) | \[ | \] | \{ | \} | :: | , | ; |
\. | \? | :)`, alternatives in source order (`::` before `:`). -/
def pattern_grouping (s : List Char) : Option (List Char) :=
  firstPrefixMatch
    [['('], [')'], ['['], [']'], ['{'], ['}'], [':', ':'], [','], [';'],
     ['.'], ['?'], [':']] s

/-- `_TOKEN_PATTERNS`, in source order. -/
def TOKEN_PATTERNS : List (String × (List Char → Option (List Char))) :=
  [("number", pattern_number), ("keyword", pattern_keyword),
   ("identifier", pattern_identifier), ("comment", pattern_comment),
   ("unary_operator", pattern_unary), ("binary_operator", pattern_binary2),
   ("binary_operator", pattern_binary1), ("grouping", pattern_grouping)]

/-- The two list comprehensions of `_get_next_token`: run every pattern at
the remaining input and keep the `(group, value)` pairs whose value is
truthy (neither a failed match nor an empty string). -/
def tokenCandidates (rem : List Char) : List (String × List Char) :=
  TOKEN_PATTERNS.filterMap (fun gp =>
    match gp.2 rem with
    | some v => if v.isEmpty then none else some (gp.1, v)
    | none => none)

/-- `token_values.sort(key=..., reverse=True)` followed by taking the first
element: Python's sort is stable, so the result is the first candidate in
source order whose value has maximal length; the fold below keeps the
earlier candidate unless a strictly longer one appears. -/
def pickLongest (c : String × List Char) (cs : List (String × List Char)) :
    String × List Char :=
  cs.foldl (fun best x => if best.2.length < x.2.length then x else best) c

/-- The scanning loop of `_consume_string`, entered with the cursor just
past the opening quote: a backslash escapes (skips) the next character
unconditionally; an unescaped closing quote ends the loop with the cursor
left on it (returning its index and position); running off the end of the
string raises the unterminated-literal error at the final cursor
position. -/
def consumeStringScan (quote : Char) (st : TokenizerState) :
    Except TokenizeError (Nat × Position × TokenizerState) :=
  if h : st.cursor < st.string.length then
    if st.string.get ⟨st.cursor, h⟩ = '\\' then
      consumeStringScan quote (advanceCursor (advanceCursor st))
    else if st.string.get ⟨st.cursor, h⟩ = quote then
      Except.ok (st.cursor, positionOf st, st)
    else consumeStringScan quote (advanceCursor st)
  else Except.error (.unterminatedStringLiteral (positionOf st))
termination_by st.string.length - st.cursor
decreasing_by
  · simp only [advanceCursor_string, advanceCursor_cursor]
    omega
  · simp only [advanceCursor_string, advanceCursor_cursor]
    omega

/-- `_consume_string` once a quote character is seen at the cursor: record
the start, skip the quote, scan, and build the `"string"` token whose value
is `self._string[start_index:end_index + 1]`. -/
def consumeStringAt (quote : Char) (st : TokenizerState) :
    Except TokenizeError (Option (Token × TokenizerState)) :=
  match consumeStringScan quote (advanceCursor st) with
  | .error e => .error e
  | .ok (endIndex, endPos, st2) =>
    .ok (some (⟨"string", pySlice st.string st.cursor (endIndex + 1),
      positionOf st, endPos⟩, st2))

/-- `_consume_string`: handles string and character literals delimited by a
double or single quote; `none` when the cursor is not on a quote. -/
def consumeString (st : TokenizerState) :
    Except TokenizeError (Option (Token × TokenizerState)) :=
  match st.string.get? st.cursor with
  | some '"' => consumeStringAt '"' st
  | some '\'' => consumeStringAt '\'' st
  | _ => Except.ok none

/-- `peek_two` of `_consume_multiline_comment`:
`self._string[self._cursor:self._cursor + 2]`. -/
def peekTwo (st : TokenizerState) : List Char :=
  (st.string.drop st.cursor).take 2

/-- The scanning loop of `_consume_multiline_comment`: advance until
`peek_two` is `*/`, then advance once more onto the `/` and end there;
running off the end raises the unterminated-comment error. -/
def consumeCommentScan (st : TokenizerState) :
    Except TokenizeError (Nat × Position × TokenizerState) :=
  if h : st.cursor < st.string.length then
    if peekTwo st = ['*', '/'] then
      Except.ok ((advanceCursor st).cursor, positionOf (advanceCursor st),
        advanceCursor st)
    else consumeCommentScan (advanceCursor st)
  else Except.error (.unterminatedComment (positionOf st))
termination_by st.string.length - st.cursor
decreasing_by
  · simp only [advanceCursor_string, advanceCursor_cursor]
    omega

/-- `_consume_multiline_comment`: `none` unless the cursor sits on `/*`;
otherwise scan for `*/` and build the `"comment"` token spanning
`self._string[start_index:end_index + 1]`. -/
def consumeMultilineComment (st : TokenizerState) :
    Except TokenizeError (Option (Token × TokenizerState)) :=
  if peekTwo st = ['/', '*'] then
    match consumeCommentScan st with
    | .error e => .error e
    | .ok (endIndex, endPos, st2) =>
      .ok (some (⟨"comment", pySlice st.string st.cursor (endIndex + 1),
        positionOf st, endPos⟩, st2))
  else .ok none

/-- `_get_next_token`: try the two special consumers first, then run every
regex pattern at the cursor, fail with the "Couldn't parse token"
error when none produced a (nonempty) value, and otherwise emit the longest
candidate, leaving the cursor on the last character of the token. -/
def getNextToken (st : TokenizerState) :
    Except TokenizeError (Token × TokenizerState) :=
  match consumeString st with
  | .error e => .error e
  | .ok (some r) => .ok r
  | .ok none =>
    match consumeMultilineComment st with
    | .error e => .error e
    | .ok (some r) => .ok r
    | .ok none =>
      match tokenCandidates (st.string.drop st.cursor) with
      | [] => .error (.unlexable (positionOf st))
      | c :: cs =>
        let gv := pickLongest c cs
        let st2 := advanceCursorN (gv.2.length - 1) st
        .ok (⟨gv.1, gv.2, positionOf st, positionOf st2⟩, st2)

/-- `_consume_whitespace`: advance over whitespace; `true` when a
non-whitespace character remains (cursor left on it), `false` when the
stream is exhausted. -/
def consumeWhitespace (st : TokenizerState) : Bool × TokenizerState :=
  if h : st.cursor < st.string.length then
    if pyIsSpace (st.string.get ⟨st.cursor, h⟩) then
      consumeWhitespace (advanceCursor st)
    else (true, st)
  else (false, st)
termination_by st.string.length - st.cursor
decreasing_by
  · simp only [advanceCursor_string, advanceCursor_cursor]
    omega

theorem consumeWhitespace_spec_aux :
    ∀ (n : Nat) (st : TokenizerState), st.string.length - st.cursor ≤ n →
      (consumeWhitespace st).2.string = st.string ∧
      st.cursor ≤ (consumeWhitespace st).2.cursor ∧
      ((consumeWhitespace st).1 = true →
        (consumeWhitespace st).2.cursor < st.string.length) := by
  intro n
  induction n with
  | zero =>
    intro st hn
    rw [consumeWhitespace, dif_neg (by omega)]
    exact ⟨rfl, le_refl _, by intro h; simp at h⟩
  | succ n ih =>
    intro st hn
    by_cases h : st.cursor < st.string.length
    · rw [consumeWhitespace, dif_pos h]
      by_cases hsp : pyIsSpace (st.string.get ⟨st.cursor, h⟩) = true
      · rw [if_pos hsp]
        have := ih (advanceCursor st)
          (by rw [advanceCursor_string, advanceCursor_cursor]; omega)
        rw [advanceCursor_string, advanceCursor_cursor] at this
        exact ⟨this.1, by omega, this.2.2⟩
      · rw [if_neg hsp]
        exact ⟨rfl, le_refl _, fun _ => h⟩
    · rw [consumeWhitespace, dif_neg h]
      exact ⟨rfl, le_refl _, by intro hc; simp at hc⟩

theorem consumeWhitespace_spec (st : TokenizerState) :
    (consumeWhitespace st).2.string = st.string ∧
    st.cursor ≤ (consumeWhitespace st).2.cursor ∧
    ((consumeWhitespace st).1 = true →
      (consumeWhitespace st).2.cursor < st.string.length) :=
  consumeWhitespace_spec_aux (st.string.length - st.cursor) st (le_refl _)

theorem consumeWhitespace_eq_spec (st : TokenizerState) (b : Bool)
    (st1 : TokenizerState) (h : consumeWhitespace st = (b, st1)) :
    st1.string = st.string ∧ st.cursor ≤ st1.cursor ∧
    (b = true → st1.cursor < st.string.length) := by
  have hspec := consumeWhitespace_spec st
  rw [h] at hspec
  exact hspec

theorem consumeStringScan_spec_aux :
    ∀ (n : Nat) (st : TokenizerState), st.string.length - st.cursor ≤ n →
      ∀ (q : Char) (ei : Nat) (ep : Position) (st2 : TokenizerState),
        consumeStringScan q st = .ok (ei, ep, st2) →
        st2.string = st.string ∧ st.cursor ≤ st2.cursor := by
  intro n
  induction n with
  | zero =>
    intro st hn q ei ep st2 h
    rw [consumeStringScan, dif_neg (by omega)] at h
    simp at h
  | succ n ih =>
    intro st hn q ei ep st2 h
    by_cases hc : st.cursor < st.string.length
    · rw [consumeStringScan, dif_pos hc] at h
      split at h
      · have := ih (advanceCursor (advanceCursor st))
          (by simp only [advanceCursor_string, advanceCursor_cursor]; omega)
          q ei ep st2 h
        simp only [advanceCursor_string, advanceCursor_cursor] at this
        exact ⟨this.1, by omega⟩
      · split at h
        · simp only [Except.ok.injEq, Prod.mk.injEq] at h
          obtain ⟨h1, h2, h3⟩ := h
          subst h3
          exact ⟨rfl, le_refl _⟩
        · have := ih (advanceCursor st)
            (by simp only [advanceCursor_string, advanceCursor_cursor]; omega)
            q ei ep st2 h
          simp only [advanceCursor_string, advanceCursor_cursor] at this
          exact ⟨this.1, by omega⟩
    · rw [consumeStringScan, dif_neg hc] at h
      simp at h

theorem consumeCommentScan_spec_aux :
    ∀ (n : Nat) (st : TokenizerState), st.string.length - st.cursor ≤ n →
      ∀ (ei : Nat) (ep : Position) (st2 : TokenizerState),
        consumeCommentScan st = .ok (ei, ep, st2) →
        st2.string = st.string ∧ st.cursor ≤ st2.cursor := by
  intro n
  induction n with
  | zero =>
    intro st hn ei ep st2 h
    rw [consumeCommentScan, dif_neg (by omega)] at h
    simp at h
  | succ n ih =>
    intro st hn ei ep st2 h
    by_cases hc : st.cursor < st.string.length
    · rw [consumeCommentScan, dif_pos hc] at h
      split at h
      · simp only [Except.ok.injEq, Prod.mk.injEq] at h
        obtain ⟨h1, h2, h3⟩ := h
        subst h3
        rw [advanceCursor_string, advanceCursor_cursor]
        exact ⟨rfl, by omega⟩
      · have := ih (advanceCursor st)
          (by simp only [advanceCursor_string, advanceCursor_cursor]; omega)
          ei ep st2 h
        simp only [advanceCursor_string, advanceCursor_cursor] at this
        exact ⟨this.1, by omega⟩
    · rw [consumeCommentScan, dif_neg hc] at h
      simp at h

theorem consumeString_spec (st : TokenizerState) (tok : Token)
    (st2 : TokenizerState) (h : consumeString st = .ok (some (tok, st2))) :
    st2.string = st.string ∧ st.cursor ≤ st2.cursor := by
  rw [consumeString] at h
  split at h
  case _ =>
    rw [consumeStringAt] at h
    split at h
    · simp at h
    next heq =>
      simp only [Except.ok.injEq, Option.some.injEq, Prod.mk.injEq] at h
      obtain ⟨h1, h2⟩ := h
      subst h2
      have := consumeStringScan_spec_aux
        ((advanceCursor st).string.length - (advanceCursor st).cursor)
        (advanceCursor st) (le_refl _) _ _ _ _ heq
      simp only [advanceCursor_string, advanceCursor_cursor] at this
      exact ⟨this.1, by omega⟩
  case _ =>
    rw [consumeStringAt] at h
    split at h
    · simp at h
    next heq =>
      simp only [Except.ok.injEq, Option.some.injEq, Prod.mk.injEq] at h
      obtain ⟨h1, h2⟩ := h
      subst h2
      have := consumeStringScan_spec_aux
        ((advanceCursor st).string.length - (advanceCursor st).cursor)
        (advanceCursor st) (le_refl _) _ _ _ _ heq
      simp only [advanceCursor_string, advanceCursor_cursor] at this
      exact ⟨this.1, by omega⟩
  case _ => simp at h

theorem consumeMultilineComment_spec (st : TokenizerState) (tok : Token)
    (st2 : TokenizerState)
    (h : consumeMultilineComment st = .ok (some (tok, st2))) :
    st2.string = st.string ∧ st.cursor ≤ st2.cursor := by
  rw [consumeMultilineComment] at h
  split at h
  · split at h
    · simp at h
    next heq =>
      simp only [Except.ok.injEq, Option.some.injEq, Prod.mk.injEq] at h
      obtain ⟨h1, h2⟩ := h
      subst h2
      exact consumeCommentScan_spec_aux (st.string.length - st.cursor) st
        (le_refl _) _ _ _ heq
  · simp at h

theorem getNextToken_spec (st : TokenizerState) (tok : Token)
    (st2 : TokenizerState) (h : getNextToken st = .ok (tok, st2)) :
    st2.string = st.string ∧ st.cursor ≤ st2.cursor := by
  rw [getNextToken] at h
  split at h
  · simp at h
  next r heq =>
    simp only [Except.ok.injEq] at h
    obtain ⟨rfl⟩ : r = (tok, st2) := by rw [h]
    exact consumeString_spec st tok st2 heq
  next heq =>
    split at h
    · simp at h
    next r heq2 =>
      simp only [Except.ok.injEq] at h
      obtain ⟨rfl⟩ : r = (tok, st2) := by rw [h]
      exact consumeMultilineComment_spec st tok st2 heq2
    next heq2 =>
      split at h
      · simp at h
      next c cs heq3 =>
        simp only [Except.ok.injEq, Prod.mk.injEq] at h
        obtain ⟨h1, h2⟩ := h
        subst h2
        rw [advanceCursorN_string, advanceCursorN_cursor]
        exact ⟨rfl, by omega⟩

/-- The `while self._consume_whitespace(): yield self._get_next_token();
self._advance_cursor()` loop of `_Tokenizer.tokenize`, collected into a
list as `tokenize` does with `list(...)`.  A raised error aborts the whole
call: no partial token list is returned. -/
def tokenizeLoop (st : TokenizerState) : Except TokenizeError (List Token) :=
  match hcw : consumeWhitespace st with
  | (false, _) => .ok []
  | (true, st1) =>
    match hgt : getNextToken st1 with
    | .error e => .error e
    | .ok (tok, st2) =>
      match tokenizeLoop (advanceCursor st2) with
      | .error e => .error e
      | .ok toks => .ok (tok :: toks)
termination_by st.string.length - st.cursor
decreasing_by
  · have hcw2 := consumeWhitespace_eq_spec st true st1 hcw
    have hgt2 := getNextToken_spec st1 tok st2 hgt
    simp only [advanceCursor_string, advanceCursor_cursor]
    have h1 := hcw2.1
    have h2 := hcw2.2.1
    have h3 := hcw2.2.2 rfl
    have h4 := hgt2.1
    have h5 := hgt2.2
    have h6 : st2.string.length = st.string.length := by rw [h4, h1]
    omega

/-- Fuel-based mirror of `consumeStringScan`, structurally recursive so
that concrete runs compute inside the kernel.  The fuel only pads the
recursion: each iteration advances the cursor by at least one, so
`string.length + 1` units always suffice, and the two functions are proved
equal below. -/
def consumeStringScanFuel (quote : Char) :
    Nat → TokenizerState → Except TokenizeError (Nat × Position × TokenizerState)
  | 0, st => Except.error (.unterminatedStringLiteral (positionOf st))
  | n + 1, st =>
    if h : st.cursor < st.string.length then
      if st.string.get ⟨st.cursor, h⟩ = '\\' then
        consumeStringScanFuel quote n (advanceCursor (advanceCursor st))
      else if st.string.get ⟨st.cursor, h⟩ = quote then
        Except.ok (st.cursor, positionOf st, st)
      else consumeStringScanFuel quote n (advanceCursor st)
    else Except.error (.unterminatedStringLiteral (positionOf st))

theorem consumeStringScanFuel_eq_aux (quote : Char) :
    ∀ (n : Nat) (st : TokenizerState), st.string.length - st.cursor < n →
      consumeStringScanFuel quote n st = consumeStringScan quote st := by
  intro n
  induction n with
  | zero => intro st hn; omega
  | succ n ih =>
    intro st hn
    rw [consumeStringScanFuel, consumeStringScan]
    by_cases h : st.cursor < st.string.length
    · rw [dif_pos h, dif_pos h]
      split
      · exact ih (advanceCursor (advanceCursor st))
          (by simp only [advanceCursor_string, advanceCursor_cursor]; omega)
      · split
        · rfl
        · exact ih (advanceCursor st)
            (by simp only [advanceCursor_string, advanceCursor_cursor]; omega)
    · rw [dif_neg h, dif_neg h]

theorem consumeStringScanFuel_eq (quote : Char) (st : TokenizerState) :
    consumeStringScanFuel quote (st.string.length + 1) st =
      consumeStringScan quote st :=
  consumeStringScanFuel_eq_aux quote (st.string.length + 1) st (by omega)

/-- Fuel-based mirror of `consumeString` (via `consumeStringAt`). -/
def consumeStringF (st : TokenizerState) :
    Except TokenizeError (Option (Token × TokenizerState)) :=
  match st.string.get? st.cursor with
  | some '"' => consumeStringAtF '"' st
  | some '\'' => consumeStringAtF '\'' st
  | _ => Except.ok none
where
  consumeStringAtF (quote : Char) (st : TokenizerState) :
      Except TokenizeError (Option (Token × TokenizerState)) :=
    match consumeStringScanFuel quote
        ((advanceCursor st).string.length + 1) (advanceCursor st) with
    | .error e => .error e
    | .ok (endIndex, endPos, st2) =>
      .ok (some (⟨"string", pySlice st.string st.cursor (endIndex + 1),
        positionOf st, endPos⟩, st2))

theorem consumeStringF_eq (st : TokenizerState) :
    consumeStringF st = consumeString st := by
  rw [consumeStringF, consumeString]
  have hat : ∀ q, consumeStringF.consumeStringAtF q st = consumeStringAt q st := by
    intro q
    rw [consumeStringF.consumeStringAtF, consumeStringAt,
      consumeStringScanFuel_eq]
  split <;> simp only [hat]

/-- Fuel-based mirror of `consumeCommentScan`. -/
def consumeCommentScanFuel :
    Nat → TokenizerState → Except TokenizeError (Nat × Position × TokenizerState)
  | 0, st => Except.error (.unterminatedComment (positionOf st))
  | n + 1, st =>
    if st.cursor < st.string.length then
      if peekTwo st = ['*', '/'] then
        Except.ok ((advanceCursor st).cursor, positionOf (advanceCursor st),
          advanceCursor st)
      else consumeCommentScanFuel n (advanceCursor st)
    else Except.error (.unterminatedComment (positionOf st))

theorem consumeCommentScanFuel_eq_aux :
    ∀ (n : Nat) (st : TokenizerState), st.string.length - st.cursor < n →
      consumeCommentScanFuel n st = consumeCommentScan st := by
  intro n
  induction n with
  | zero => intro st hn; omega
  | succ n ih =>
    intro st hn
    rw [consumeCommentScanFuel, consumeCommentScan]
    by_cases h : st.cursor < st.string.length
    · rw [if_pos h, dif_pos h]
      split
      · rfl
      · exact ih (advanceCursor st)
          (by simp only [advanceCursor_string, advanceCursor_cursor]; omega)
    · rw [if_neg h, dif_neg h]

theorem consumeCommentScanFuel_eq (st : TokenizerState) :
    consumeCommentScanFuel (st.string.length + 1) st = consumeCommentScan st :=
  consumeCommentScanFuel_eq_aux (st.string.length + 1) st (by omega)

/-- Fuel-based mirror of `consumeMultilineComment`. -/
def consumeMultilineCommentF (st : TokenizerState) :
    Except TokenizeError (Option (Token × TokenizerState)) :=
  if peekTwo st = ['/', '*'] then
    match consumeCommentScanFuel (st.string.length + 1) st with
    | .error e => .error e
    | .ok (endIndex, endPos, st2) =>
      .ok (some (⟨"comment", pySlice st.string st.cursor (endIndex + 1),
        positionOf st, endPos⟩, st2))
  else .ok none

theorem consumeMultilineCommentF_eq (st : TokenizerState) :
    consumeMultilineCommentF st = consumeMultilineComment st := by
  rw [consumeMultilineCommentF, consumeMultilineComment,
    consumeCommentScanFuel_eq]

/-- Fuel-based mirror of `getNextToken`. -/
def getNextTokenF (st : TokenizerState) :
    Except TokenizeError (Token × TokenizerState) :=
  match consumeStringF st with
  | .error e => .error e
  | .ok (some r) => .ok r
  | .ok none =>
    match consumeMultilineCommentF st with
    | .error e => .error e
    | .ok (some r) => .ok r
    | .ok none =>
      match tokenCandidates (st.string.drop st.cursor) with
      | [] => .error (.unlexable (positionOf st))
      | c :: cs =>
        let gv := pickLongest c cs
        let st2 := advanceCursorN (gv.2.length - 1) st
        .ok (⟨gv.1, gv.2, positionOf st, positionOf st2⟩, st2)

theorem getNextTokenF_eq (st : TokenizerState) :
    getNextTokenF st = getNextToken st := by
  rw [getNextTokenF, getNextToken, consumeStringF_eq,
    consumeMultilineCommentF_eq]

/-- Fuel-based mirror of `consumeWhitespace`. -/
def consumeWhitespaceFuel : Nat → TokenizerState → Bool × TokenizerState
  | 0, st => (false, st)
  | n + 1, st =>
    if h : st.cursor < st.string.length then
      if pyIsSpace (st.string.get ⟨st.cursor, h⟩) then
        consumeWhitespaceFuel n (advanceCursor st)
      else (true, st)
    else (false, st)

theorem consumeWhitespaceFuel_eq_aux :
    ∀ (n : Nat) (st : TokenizerState), st.string.length - st.cursor < n →
      consumeWhitespaceFuel n st = consumeWhitespace st := by
  intro n
  induction n with
  | zero => intro st hn; omega
  | succ n ih =>
    intro st hn
    rw [consumeWhitespaceFuel, consumeWhitespace]
    by_cases h : st.cursor < st.string.length
    · rw [dif_pos h, dif_pos h]
      split
      · exact ih (advanceCursor st)
          (by simp only [advanceCursor_string, advanceCursor_cursor]; omega)
      · rfl
    · rw [dif_neg h, dif_neg h]

theorem consumeWhitespaceFuel_eq (st : TokenizerState) :
    consumeWhitespaceFuel (st.string.length + 1) st = consumeWhitespace st :=
  consumeWhitespaceFuel_eq_aux (st.string.length + 1) st (by omega)

/-- Fuel-based mirror of `tokenizeLoop`. -/
def tokenizeLoopFuel : Nat → TokenizerState → Except TokenizeError (List Token)
  | 0, _ => .ok []
  | n + 1, st =>
    match consumeWhitespaceFuel (st.string.length + 1) st with
    | (false, _) => .ok []
    | (true, st1) =>
      match getNextTokenF st1 with
      | .error e => .error e
      | .ok (tok, st2) =>
        match tokenizeLoopFuel n (advanceCursor st2) with
        | .error e => .error e
        | .ok toks => .ok (tok :: toks)

theorem tokenizeLoop_done (st snd : TokenizerState)
    (hcw : consumeWhitespace st = (false, snd)) :
    tokenizeLoop st = .ok [] := by
  rw [tokenizeLoop]
  split
  next _ _ => rfl
  next st1 hcw2 =>
    rw [hcw] at hcw2
    simp at hcw2

theorem tokenizeLoop_failed (st st1 : TokenizerState) (e : TokenizeError)
    (hcw : consumeWhitespace st = (true, st1))
    (hgt : getNextToken st1 = .error e) :
    tokenizeLoop st = .error e := by
  rw [tokenizeLoop]
  split
  next _ hcw2 =>
    rw [hcw] at hcw2
    simp at hcw2
  next st1b hcw2 =>
    rw [hcw] at hcw2
    simp only [Prod.mk.injEq, true_and] at hcw2
    subst hcw2
    split
    next e2 hgt2 =>
      rw [hgt] at hgt2
      simp only [Except.error.injEq] at hgt2
      rw [hgt2]
    next tok st2 hgt2 =>
      rw [hgt] at hgt2
      simp at hgt2

theorem tokenizeLoop_step (st st1 : TokenizerState) (tok : Token)
    (st2 : TokenizerState)
    (hcw : consumeWhitespace st = (true, st1))
    (hgt : getNextToken st1 = .ok (tok, st2)) :
    tokenizeLoop st =
      match tokenizeLoop (advanceCursor st2) with
      | .error e => .error e
      | .ok toks => .ok (tok :: toks) := by
  rw [tokenizeLoop]
  split
  next _ hcw2 =>
    rw [hcw] at hcw2
    simp at hcw2
  next st1b hcw2 =>
    rw [hcw] at hcw2
    simp only [Prod.mk.injEq, true_and] at hcw2
    subst hcw2
    split
    next e2 hgt2 =>
      rw [hgt] at hgt2
      simp at hgt2
    next tok2 st2b hgt2 =>
      rw [hgt] at hgt2
      simp only [Except.ok.injEq, Prod.mk.injEq] at hgt2
      rw [hgt2.1, hgt2.2]

theorem tokenizeLoopFuel_eq_aux :
    ∀ (n : Nat) (st : TokenizerState), st.string.length - st.cursor < n →
      tokenizeLoopFuel n st = tokenizeLoop st := by
  intro n
  induction n with
  | zero => intro st hn; omega
  | succ n ih =>
    intro st hn
    rw [tokenizeLoopFuel, consumeWhitespaceFuel_eq]
    rcases hcw : consumeWhitespace st with ⟨b, st1⟩
    cases b
    · rw [tokenizeLoop_done st st1 hcw]
    · show (match getNextTokenF st1 with
          | Except.error e => Except.error e
          | Except.ok (tok, st2) =>
            match tokenizeLoopFuel n (advanceCursor st2) with
            | Except.error e => Except.error e
            | Except.ok toks => Except.ok (tok :: toks)) = tokenizeLoop st
      rw [getNextTokenF_eq]
      rcases hgt : getNextToken st1 with e | ⟨tok, st2⟩
      · rw [tokenizeLoop_failed st st1 e hcw hgt]
      · rw [tokenizeLoop_step st st1 tok st2 hcw hgt]
        have hcw2 := consumeWhitespace_eq_spec st true st1 hcw
        have hgt2 := getNextToken_spec st1 tok st2 hgt
        have h1 := hcw2.1
        have h2 := hcw2.2.1
        have h3 := hcw2.2.2 rfl
        have h4 := hgt2.1
        have h5 := hgt2.2
        have h6 : st2.string.length = st.string.length := by rw [h4, h1]
        show (match tokenizeLoopFuel n (advanceCursor st2) with
            | Except.error e => Except.error e
            | Except.ok toks => Except.ok (tok :: toks)) =
          match tokenizeLoop (advanceCursor st2) with
          | Except.error e => Except.error e
          | Except.ok toks => Except.ok (tok :: toks)
        rw [ih (advanceCursor st2)
          (by simp only [advanceCursor_string, advanceCursor_cursor]; omega)]

/-- Fuel-based mirror of `tokenize`, proved equal to it: used to evaluate
the tokenizer on concrete inputs. -/
def tokenizeF (s : List Char) : Option (Except TokenizeError (List Token)) :=
  if '\t' ∈ s then none
  else some (tokenizeLoopFuel (s.length + 2) ⟨s ++ ['\n'], 0, 0, 0⟩)

/-- `tokenize` of `lint381/tokenizer.py`: assert the input has no tabs
(`none` models the `AssertionError`), append the dummy `"\n"`, and run the
tokenizer from cursor 0, row 0, column 0. -/
def tokenize (s : List Char) : Option (Except TokenizeError (List Token)) :=
  if '\t' ∈ s then none
  else some (tokenizeLoop ⟨s ++ ['\n'], 0, 0, 0⟩)

theorem tokenizeF_eq (s : List Char) : tokenizeF s = tokenize s := by
  rw [tokenizeF, tokenize]
  split
  · rfl
  · rw [tokenizeLoopFuel_eq_aux (s.length + 2) ⟨s ++ ['\n'], 0, 0, 0⟩
      (by simp)]

end Tokenizer

end Lint381

namespace Lint381.Matcher

section MatcherLemmas

variable {α : Type} {start_ end_ : α → Bool}

theorem scanEndAux_inl_bounds :
    ∀ (rem : List α) (i j s e : Nat), i ≤ j →
      scanEndAux start_ end_ i rem j = Sum.inl (s, e) → i ≤ s ∧ s ≤ e := by
  intro rem
  induction rem with
  | nil => intro i j s e hij h; simp [scanEndAux] at h
  | cons t rest ih =>
    intro i j s e hij h
    simp only [scanEndAux] at h
    split at h
    · simp only [Sum.inl.injEq, Prod.mk.injEq] at h
      obtain ⟨hs, he⟩ := h
      subst hs he
      split <;> omega
    · split at h
      · have := ih _ _ _ _ (by omega) h
        omega
      · exact ih _ _ _ _ (by omega) h

/-- Full characterization of the inner scan: when it reports an end token at
index `e` with re-armed span start `s`, then `e` is the first index at or
after `j` whose token satisfies `end`, and either no token in `[j, e]`
satisfied `start` (so `s` is the inherited provisional start `i`), or `s` is
the last index in `[j, e]` whose token satisfies `start`. -/
theorem scanEndAux_spec (tokens : List α) :
    ∀ (rem : List α) (i j s e : Nat), i ≤ j → tokens.drop j = rem →
      scanEndAux start_ end_ i rem j = Sum.inl (s, e) →
      ∃ he : e < tokens.length,
        j ≤ e ∧ end_ (tokens.get ⟨e, he⟩) = true ∧
        (∀ k (hk : k < tokens.length), j ≤ k → k < e →
          end_ (tokens.get ⟨k, hk⟩) = false) ∧
        ((s = i ∧ ∀ k (hk : k < tokens.length), j ≤ k → k ≤ e →
            start_ (tokens.get ⟨k, hk⟩) = false) ∨
         (j ≤ s ∧ s ≤ e ∧ (∃ hs : s < tokens.length,
            start_ (tokens.get ⟨s, hs⟩) = true) ∧
          ∀ k (hk : k < tokens.length), s < k → k ≤ e →
            start_ (tokens.get ⟨k, hk⟩) = false)) := by
  intro rem
  induction rem with
  | nil => intro i j s e hij hrem h; simp [scanEndAux] at h
  | cons t rest ih =>
    intro i j s e hij hrem h
    have hj : j < tokens.length := by
      have := congrArg List.length hrem
      simp [List.length_drop] at this
      omega
    have hcons : tokens.drop j = tokens.get ⟨j, hj⟩ :: tokens.drop (j + 1) :=
      List.drop_eq_getElem_cons hj
    rw [hrem] at hcons
    injection hcons with ht0 hrest0
    have ht : tokens.get ⟨j, hj⟩ = t := ht0.symm
    have hrest : tokens.drop (j + 1) = rest := hrest0.symm
    simp only [scanEndAux] at h
    split at h
    next hend =>
      simp only [Sum.inl.injEq, Prod.mk.injEq] at h
      obtain ⟨hs, he⟩ := h
      subst he
      refine ⟨hj, le_refl j, by rw [ht]; exact hend, ?_, ?_⟩
      · intro k hk h1 h2; omega
      · by_cases hst : start_ t = true
        · right
          rw [if_pos hst] at hs
          subst hs
          exact ⟨le_refl j, le_refl j, ⟨hj, by rw [ht]; exact hst⟩,
            fun k hk h1 h2 => by omega⟩
        · left
          rw [if_neg hst] at hs
          subst hs
          refine ⟨rfl, fun k hk h1 h2 => ?_⟩
          have : k = j := by omega
          subst this
          rw [ht]
          exact Bool.not_eq_true _ |>.mp hst
    next hend =>
      by_cases hst : start_ t = true
      · rw [if_pos hst] at h
        obtain ⟨he', h1, h2, h3, h4⟩ := ih j (j + 1) s e (by omega) hrest h
        refine ⟨he', by omega, h2, ?_, ?_⟩
        · intro k hk hk1 hk2
          rcases Nat.eq_or_lt_of_le hk1 with heq | hlt
          · subst heq
            rw [ht]
            exact Bool.not_eq_true _ |>.mp hend
          · exact h3 k hk hlt hk2
        · right
          rcases h4 with ⟨hsi, hnone⟩ | ⟨hjs, hse, hstart, hmax⟩
          · refine ⟨by omega, by omega, ?_,
              fun k hk hk1 hk2 => hnone k hk (by omega) hk2⟩
            simp only [hsi]
            exact ⟨hj, by rw [ht]; exact hst⟩
          · exact ⟨by omega, hse, hstart, hmax⟩
      · rw [if_neg hst] at h
        obtain ⟨he', h1, h2, h3, h4⟩ := ih i (j + 1) s e (by omega) hrest h
        refine ⟨he', by omega, h2, ?_, ?_⟩
        · intro k hk hk1 hk2
          rcases Nat.eq_or_lt_of_le hk1 with heq | hlt
          · subst heq
            rw [ht]
            exact Bool.not_eq_true _ |>.mp hend
          · exact h3 k hk hlt hk2
        · rcases h4 with ⟨hsi, hnone⟩ | ⟨hjs, hse, hstart, hmax⟩
          · left
            refine ⟨hsi, fun k hk hk1 hk2 => ?_⟩
            rcases Nat.eq_or_lt_of_le hk1 with heq | hlt
            · subst heq
              rw [ht]
              exact Bool.not_eq_true _ |>.mp hst
            · exact hnone k hk hlt hk2
          · right
            exact ⟨by omega, hse, hstart, hmax⟩

/-- Specialization to the call the outer loop makes: scanning from a token
that satisfies `start` yields a span start `s` that is the last index in
`[i, e]` satisfying `start`, and an end `e` that is the first index at or
after `i` satisfying `end`. -/
theorem scanEnd_inl_spec (tokens : List α) (i s e : Nat)
    (h : i < tokens.length) (hstart : start_ (tokens.get ⟨i, h⟩) = true)
    (hscan : scanEnd start_ end_ tokens i = Sum.inl (s, e)) :
    ∃ he : e < tokens.length,
      i ≤ s ∧ s ≤ e ∧
      end_ (tokens.get ⟨e, he⟩) = true ∧
      (∀ k (hk : k < tokens.length), i ≤ k → k < e →
        end_ (tokens.get ⟨k, hk⟩) = false) ∧
      (∃ hs : s < tokens.length, start_ (tokens.get ⟨s, hs⟩) = true) ∧
      (∀ k (hk : k < tokens.length), s < k → k ≤ e →
        start_ (tokens.get ⟨k, hk⟩) = false) := by
  obtain ⟨he, h1, h2, h3, h4⟩ :=
    scanEndAux_spec tokens (tokens.drop i) i i s e (le_refl i) rfl hscan
  rcases h4 with ⟨hsi, hnone⟩ | ⟨his, hse, hst, hmax⟩
  · have := hnone i h (le_refl i) h1
    rw [hstart] at this
    exact absurd this (by simp)
  · exact ⟨he, his, hse, h2, h3, hst, hmax⟩

end MatcherLemmas

end Lint381.Matcher

namespace Lint381.Matcher

section MatcherBehavior

variable {α : Type} {start_ end_ : α → Bool}

/-- One step of the general search when the inner scan finds an end token:
the span `(s, e + lookahead)` is emitted when the extended end index is in
range, and the scan resumes at `e + lookahead + 1` (the index after the
*extended* end).  Shared by several claims below. -/
theorem matchSpansFrom_inl_eq (tokens : List α) (la i s e : Nat)
    (h : i < tokens.length) (hstart : start_ (tokens.get ⟨i, h⟩) = true)
    (hscan : scanEnd start_ end_ tokens i = Sum.inl (s, e)) :
    matchSpansFrom start_ end_ la tokens i =
      (if e + la < tokens.length then [(s, e + la)] else []) ++
        matchSpansFrom start_ end_ la tokens (e + la + 1) := by
  rw [matchSpansFrom, dif_pos h, if_pos hstart]
  split
  next s' e' heq =>
    rw [hscan] at heq
    simp only [Sum.inl.injEq, Prod.mk.injEq] at heq
    obtain ⟨h1, h2⟩ := heq
    subst h1 h2
    rfl
  next i2 heq =>
    rw [hscan] at heq
    simp at heq

/-- Every span produced by the general search from index `i` starts at or
after `i`, and its start does not exceed its end. -/
theorem matchSpansFrom_bounds_aux (tokens : List α) (la : Nat) :
    ∀ (n i : Nat), tokens.length - i ≤ n →
      ∀ p ∈ matchSpansFrom start_ end_ la tokens i, i ≤ p.1 ∧ p.1 ≤ p.2 := by
  intro n
  induction n with
  | zero =>
    intro i hn p hp
    rw [matchSpansFrom, dif_neg (by omega)] at hp
    simp at hp
  | succ n ih =>
    intro i hn p hp
    by_cases h : i < tokens.length
    · rw [matchSpansFrom, dif_pos h] at hp
      by_cases hstart : start_ (tokens.get ⟨i, h⟩) = true
      · rw [if_pos hstart] at hp
        split at hp
        next s e heq =>
          have hie : i ≤ e := scanEndAux_inl_ge start_ end_ i (tokens.drop i) i s e heq
          have hse := scanEndAux_inl_bounds (tokens.drop i) i i s e (le_refl i) heq
          simp only [List.mem_append] at hp
          rcases hp with hp | hp
          · split at hp
            · simp only [List.mem_singleton] at hp
              subst hp
              exact ⟨by omega, by omega⟩
            · simp at hp
          · have := ih (e + la + 1) (by omega) p hp
            exact ⟨by omega, this.2⟩
        next i2 heq =>
          have hi2 : i ≤ i2 :=
            scanEndAux_inr_ge start_ end_ i (tokens.drop i) i i2 (le_refl i) heq
          have := ih (i2 + 1) (by omega) p hp
          exact ⟨by omega, this.2⟩
      · rw [if_neg hstart] at hp
        have := ih (i + 1) (by omega) p hp
        exact ⟨by omega, this.2⟩
    · rw [matchSpansFrom, dif_neg h] at hp
      simp at hp

theorem matchSpansFrom_bounds (tokens : List α) (la i : Nat) :
    ∀ p ∈ matchSpansFrom start_ end_ la tokens i, i ≤ p.1 ∧ p.1 ≤ p.2 :=
  matchSpansFrom_bounds_aux tokens la tokens.length i (by omega)

/-- The spans produced by the general search are strictly ordered: each
span ends strictly before the next one starts. -/
theorem matchSpansFrom_pairwise_aux (tokens : List α) (la : Nat) :
    ∀ (n i : Nat), tokens.length - i ≤ n →
      (matchSpansFrom start_ end_ la tokens i).Pairwise
        (fun p q => p.2 < q.1) := by
  intro n
  induction n with
  | zero =>
    intro i hn
    rw [matchSpansFrom, dif_neg (by omega)]
    simp
  | succ n ih =>
    intro i hn
    by_cases h : i < tokens.length
    · rw [matchSpansFrom, dif_pos h]
      by_cases hstart : start_ (tokens.get ⟨i, h⟩) = true
      · rw [if_pos hstart]
        split
        next s e heq =>
          have hie : i ≤ e := scanEndAux_inl_ge start_ end_ i (tokens.drop i) i s e heq
          rw [List.pairwise_append]
          refine ⟨?_, ih (e + la + 1) (by omega), ?_⟩
          · split <;> simp
          · intro p hp q hq
            have hq1 := (matchSpansFrom_bounds tokens la (e + la + 1) q hq).1
            split at hp
            · simp only [List.mem_singleton] at hp
              subst hp
              omega
            · simp at hp
        next i2 heq =>
          have hi2 : i ≤ i2 :=
            scanEndAux_inr_ge start_ end_ i (tokens.drop i) i i2 (le_refl i) heq
          exact ih (i2 + 1) (by omega)
      · rw [if_neg hstart]
        exact ih (i + 1) (by omega)
    · rw [matchSpansFrom, dif_neg h]
      simp

theorem matchSpansFrom_pairwise (tokens : List α) (la i : Nat) :
    (matchSpansFrom start_ end_ la tokens i).Pairwise (fun p q => p.2 < q.1) :=
  matchSpansFrom_pairwise_aux tokens la tokens.length i (by omega)

end MatcherBehavior

end Lint381.Matcher

namespace Lint381.Matcher

section FixedMode

variable {α : Type} {start_ end_ : α → Bool}

/-- Exact-length mode refines its declarative description: with a requested
length of at least 1, `matchFixedSpansFrom` started at `i` emits exactly
`fixedEmit` of each index `k ≥ i` in order.  In particular the scan never
re-arms and visits every index in turn (the source's early `break` on an
out-of-range probe loses nothing, because every later probe is also out of
range). -/
theorem matchFixedSpansFrom_eq_aux (tokens : List α) (L la : Nat) (hL : 1 ≤ L) :
    ∀ (n i : Nat), tokens.length - i ≤ n →
      matchFixedSpansFrom start_ end_ L la tokens i =
        (List.range' i (tokens.length - i)).filterMap
          (fixedEmit start_ end_ L la tokens) := by
  intro n
  induction n with
  | zero =>
    intro i hn
    rw [matchFixedSpansFrom, dif_neg (by omega)]
    have h0 : tokens.length - i = 0 := by omega
    rw [h0]
    simp
  | succ n ih =>
    intro i hn
    by_cases h : i < tokens.length
    · have hrange : tokens.length - i = (tokens.length - (i + 1)) + 1 := by omega
      rw [hrange, List.range'_succ, List.filterMap_cons,
          matchFixedSpansFrom, dif_pos h]
      by_cases hstart : start_ (tokens.get ⟨i, h⟩) = true
      · rw [if_pos hstart]
        by_cases hj : i + L - 1 < tokens.length
        · rw [dif_pos hj]
          have hfi : fixedEmit start_ end_ L la tokens i =
              (if end_ (tokens.get ⟨i + L - 1, hj⟩) = true ∧
                  i + L - 1 + la < tokens.length
               then some (i, i + L - 1 + la) else none) := by
            rw [fixedEmit, dif_pos ⟨h, hj⟩]
            by_cases hcond : end_ (tokens.get ⟨i + L - 1, hj⟩) = true ∧
                i + L - 1 + la < tokens.length
            · rw [if_pos ⟨hstart, hcond.1, hcond.2⟩, if_pos hcond]
            · rw [if_neg (by tauto), if_neg hcond]
          rw [hfi, ih (i + 1) (by omega)]
          by_cases hcond : end_ (tokens.get ⟨i + L - 1, hj⟩) = true ∧
              i + L - 1 + la < tokens.length
          · rw [if_pos hcond, if_pos hcond]
            rfl
          · rw [if_neg hcond, if_neg hcond]
            rfl
        · rw [dif_neg hj]
          have hfi : fixedEmit start_ end_ L la tokens i = none := by
            rw [fixedEmit, dif_neg (by tauto)]
          rw [hfi]
          have hnone : ∀ k ∈ List.range' (i + 1) (tokens.length - (i + 1)),
              fixedEmit start_ end_ L la tokens k = none := by
            intro k hk
            have hik : i + 1 ≤ k := (List.mem_range'_1.mp hk).1
            rw [fixedEmit, dif_neg (by omega)]
          rw [List.filterMap_eq_nil_iff.mpr hnone]
      · rw [if_neg hstart]
        have hfi : fixedEmit start_ end_ L la tokens i = none := by
          rw [fixedEmit]
          split
          · rw [if_neg (by tauto)]
          · rfl
        rw [hfi, ih (i + 1) (by omega)]
    · rw [matchFixedSpansFrom, dif_neg h]
      have h0 : tokens.length - i = 0 := by omega
      rw [h0]
      simp

/-- The exact-length characterization at the top-level entry point. -/
theorem matchFixedSpansFrom_eq (tokens : List α) (L la : Nat) (hL : 1 ≤ L) :
    matchFixedSpansFrom start_ end_ L la tokens 0 =
      (List.range' 0 tokens.length).filterMap
        (fixedEmit start_ end_ L la tokens) := by
  have h := @matchFixedSpansFrom_eq_aux α start_ end_
    tokens L la hL tokens.length 0 (by omega)
  simpa using h

end FixedMode

end Lint381.Matcher

namespace Lint381.Matcher

section MatcherClaims

variable {α : Type}

/-- Claim C1 is false on the effective code: the matcher module the package
imports (`matcher/__init__.py`) does not reject exact length combined with a
nonzero lookahead; it scans and emits matches.  On the token values of the
`string_compare` rule in `cpp.py` (which calls `match_tokens` with
`length=2, lookahead=1`), the call yields the three-token match
`[".", "compare", "("]` — matches *are* produced. -/
theorem claim1_counterexample :
    match_tokens [".", "compare", "("] (fun t => t == ".")
        (some (fun t => t == "compare")) 1 (some 2) =
      [[".", "compare", "("]] ∧
    match_tokens [".", "compare", "("] (fun t => t == ".")
        (some (fun t => t == "compare")) 1 (some 2) ≠ [] := by
  have h : match_tokens [".", "compare", "("] (fun t => t == ".")
      (some (fun t => t == "compare")) 1 (some 2) = [[".", "compare", "("]] := by
    simp [match_tokens, matchSpans, matchFixedSpansFrom, pySlice]
  exact ⟨h, by rw [h]; simp⟩

/-- Claim C1 (amended): only the legacy flat module `matcher.py` rejects the
combination `length != none ∧ lookahead != 0`, by an assertion raised before
any token is scanned, with no matches produced.  The matcher package
(`matcher/__init__.py`), which shadows it on import and is the code that
runs, accepts the combination: it emits the exact-length span extended by
`lookahead` for every start index whose probe succeeds and whose extended
end stays in range. -/
theorem claim1_exact_length_with_lookahead (tokens : List α) (start_ : α → Bool)
    (end? : Option (α → Bool)) (lookahead N : Nat) (hN : 1 ≤ N)
    (hla : lookahead ≠ 0) :
    legacy_match_tokens tokens start_ end? lookahead (some N) =
      Except.error "Lookahead not implemented for length != 0" ∧
    matchSpans tokens start_ end? lookahead (some N) =
      (List.range' 0 tokens.length).filterMap
        (fixedEmit start_ (end?.getD start_) N lookahead tokens) := by
  constructor
  · simp only [legacy_match_tokens]
    rw [if_pos (show 0 < N by omega), if_neg hla]
  · simp only [matchSpans]
    exact matchFixedSpansFrom_eq tokens N lookahead hN

theorem claim1_witness :
    legacy_match_tokens [".", "compare", "("] (fun t => t == ".")
        (some (fun t => t == "compare")) 1 (some 2) =
      Except.error "Lookahead not implemented for length != 0" ∧
    matchSpans [".", "compare", "("] (fun t => t == ".")
        (some (fun t => t == "compare")) 1 (some 2) = [(0, 2)] := by
  have h := claim1_exact_length_with_lookahead [".", "compare", "("]
    (fun t => t == ".") (some (fun t => t == "compare")) 1 2
    (by decide) (by decide)
  exact ⟨h.1, by rw [h.2]; decide⟩

end MatcherClaims

end Lint381.Matcher

namespace Lint381.Matcher

section MatcherClaims2

variable {α : Type}

/-- Claim C2 is false on the code for nonzero lookahead: after a candidate
with un-extended end index `e`, the source sets `j += lookahead` and then
`i = j` before the outer loop's `i += 1`, so scanning resumes at
`e + lookahead + 1`, not at `e + 1`.  On `["a", "b", "a", "b", "c"]` with
`isStart` matching `a`, `isEnd` matching `b` and lookahead `1`, the code
emits only the span `(0, 2)` and skips index `2` entirely, whereas resuming
at the un-extended `e + 1 = 2` (the variant `matchSpansFromResumeUnextended`
written from the spec's words) would also emit `(2, 4)`. -/
theorem claim2_counterexample :
    matchSpansFrom (fun t => t == "a") (fun t => t == "b") 1
        ["a", "b", "a", "b", "c"] 0 = [(0, 2)] ∧
    matchSpansFromResumeUnextended (fun t => t == "a") (fun t => t == "b") 1
        ["a", "b", "a", "b", "c"] 0 = [(0, 2), (2, 4)] ∧
    matchSpansFrom (fun t => t == "a") (fun t => t == "b") 1
        ["a", "b", "a", "b", "c"] 0 ≠
      matchSpansFromResumeUnextended (fun t => t == "a") (fun t => t == "b") 1
        ["a", "b", "a", "b", "c"] 0 := by
  have h1 : matchSpansFrom (fun t => t == "a") (fun t => t == "b") 1
      ["a", "b", "a", "b", "c"] 0 = [(0, 2)] := by
    simp [matchSpansFrom, scanEnd, scanEndAux]
    decide
  have h2 : matchSpansFromResumeUnextended (fun t => t == "a") (fun t => t == "b") 1
      ["a", "b", "a", "b", "c"] 0 = [(0, 2), (2, 4)] := by
    simp [matchSpansFromResumeUnextended, scanEnd, scanEndAux]
  exact ⟨h1, h2, by rw [h1, h2]; decide⟩

/-- Claim C2 (amended): in the general search, after a candidate whose
un-extended end token is at index `e`, scanning resumes at
`e + lookahead + 1` — immediately after the *extended* end index — whether
the candidate was emitted (extended end in range) or discarded; only for
lookahead `0` does this coincide with `e + 1`. -/
theorem claim2_resume_after_extended_end (tokens : List α)
    (start_ end_ : α → Bool) (la i s e : Nat) (h : i < tokens.length)
    (hstart : start_ (tokens.get ⟨i, h⟩) = true)
    (hscan : scanEnd start_ end_ tokens i = Sum.inl (s, e)) :
    matchSpansFrom start_ end_ la tokens i =
      (if e + la < tokens.length then [(s, e + la)] else []) ++
        matchSpansFrom start_ end_ la tokens (e + la + 1) :=
  matchSpansFrom_inl_eq tokens la i s e h hstart hscan

theorem claim2_witness :
    matchSpansFrom (fun t => t == "a") (fun t => t == "b") 1
        ["a", "b", "a", "b", "c"] 0 =
      (if 1 + 1 < ["a", "b", "a", "b", "c"].length then [(0, 1 + 1)] else []) ++
        matchSpansFrom (fun t => t == "a") (fun t => t == "b") 1
          ["a", "b", "a", "b", "c"] (1 + 1 + 1) :=
  claim2_resume_after_extended_end ["a", "b", "a", "b", "c"]
    (fun t => t == "a") (fun t => t == "b") 1 0 0 1
    (by decide) (by decide) (by decide)

/-- Claim C3 is false in exact-length mode: the scan advances by one index
per iteration regardless of emission, so emitted spans may overlap.  On
`["a", "a", "a"]` with both predicates matching `a` and exact length 2, the
code emits the spans `(0, 1)` and `(1, 2)`, which share token index 1. -/
theorem claim3_counterexample :
    matchSpans ["a", "a", "a"] (fun t => t == "a") none 0 (some 2) =
      [(0, 1), (1, 2)] ∧
    ∃ p q k, p ∈ matchSpans ["a", "a", "a"] (fun t => t == "a") none 0 (some 2) ∧
      q ∈ matchSpans ["a", "a", "a"] (fun t => t == "a") none 0 (some 2) ∧
      p ≠ q ∧ p.1 ≤ k ∧ k ≤ p.2 ∧ q.1 ≤ k ∧ k ≤ q.2 := by
  have h : matchSpans ["a", "a", "a"] (fun t => t == "a") none 0 (some 2) =
      [(0, 1), (1, 2)] := by
    simp [matchSpans, matchFixedSpansFrom]
  refine ⟨h, (0, 1), (1, 2), 1, ?_, ?_, by decide, by decide, by decide,
    by decide, by decide⟩
  · rw [h]; decide
  · rw [h]; decide

/-- Claim C3 (amended): in the general-search mode the emitted matches are
pairwise disjoint — each span ends strictly before the next begins, so no
token index belongs to two of them.  (In exact-length mode overlap is
possible, per the counterexample.) -/
theorem claim3_general_mode_disjoint (tokens : List α) (start_ : α → Bool)
    (end? : Option (α → Bool)) (lookahead : Nat) :
    (matchSpans tokens start_ end? lookahead none).Pairwise
      (fun p q => p.2 < q.1) ∧
    (matchSpans tokens start_ end? lookahead none).Pairwise
      (fun p q => ∀ k, p.1 ≤ k → k ≤ p.2 → ¬ (q.1 ≤ k ∧ k ≤ q.2)) := by
  have h : (matchSpans tokens start_ end? lookahead none).Pairwise
      (fun p q => p.2 < q.1) := by
    simp only [matchSpans]
    exact @matchSpansFrom_pairwise α start_ (end?.getD start_) tokens lookahead 0
  exact ⟨h, h.imp (fun hpq k hk1 hk2 hq => by omega)⟩

/-- Claim C4: in the general search the emitted span is the tightest one —
its end `e` is the first index at or after the scan start whose token
satisfies `isEnd`, and its start `s` is the *last* index in `[i, e]` whose
token satisfies `isStart` (re-arming), every later index in `(s, e]`
failing `isStart`.  The span `(s, e + lookahead)` is the first match
emitted from `i`. -/
theorem claim4_rearm_minimal_span (tokens : List α) (start_ end_ : α → Bool)
    (la i s e : Nat) (h : i < tokens.length)
    (hstart : start_ (tokens.get ⟨i, h⟩) = true)
    (hscan : scanEnd start_ end_ tokens i = Sum.inl (s, e))
    (hla : e + la < tokens.length) :
    (matchSpansFrom start_ end_ la tokens i).head? = some (s, e + la) ∧
    i ≤ s ∧ s ≤ e ∧
    (∃ hs : s < tokens.length, start_ (tokens.get ⟨s, hs⟩) = true) ∧
    (∀ k (hk : k < tokens.length), s < k → k ≤ e →
      start_ (tokens.get ⟨k, hk⟩) = false) ∧
    (∃ he : e < tokens.length, end_ (tokens.get ⟨e, he⟩) = true) ∧
    (∀ k (hk : k < tokens.length), i ≤ k → k < e →
      end_ (tokens.get ⟨k, hk⟩) = false) := by
  obtain ⟨he, his, hse, hend, hmin, hstart2, hmax⟩ :=
    scanEnd_inl_spec tokens i s e h hstart hscan
  refine ⟨?_, his, hse, hstart2, hmax, ⟨he, hend⟩, hmin⟩
  rw [matchSpansFrom_inl_eq tokens la i s e h hstart hscan, if_pos hla]
  rfl

theorem claim4_witness :
    (matchSpansFrom (fun t => t == "A") (fun t => t == "B") 0
        ["A", "foo", "A", "bar", "B"] 0).head? = some (2, 4 + 0) ∧
    match_tokens ["A", "foo", "A", "bar", "B"] (fun t => t == "A")
        (some (fun t => t == "B")) 0 none = [["A", "bar", "B"]] := by
  have h := claim4_rearm_minimal_span ["A", "foo", "A", "bar", "B"]
    (fun t => t == "A") (fun t => t == "B") 0 0 2 4
    (by decide) (by decide) (by decide) (by decide)
  refine ⟨h.1, ?_⟩
  simp [match_tokens, matchSpans, matchSpansFrom, scanEnd, scanEndAux, pySlice]

end MatcherClaims2

end Lint381.Matcher

namespace Lint381.Matcher

section MatcherClaims3

variable {α : Type}

/-- Claim C5: with exact length `N ≥ 1` and zero lookahead, `match_tokens`
emits the span `(i, i + N - 1)` exactly for those indices `i` (in
increasing order) where the token at `i` satisfies `isStart`, the index
`i + N - 1` is in range, and its token satisfies `isEnd` — with no
re-arming. -/
theorem claim5_exact_length_mode (tokens : List α) (start_ end_ : α → Bool)
    (N : Nat) (hN : 1 ≤ N) :
    matchSpans tokens start_ (some end_) 0 (some N) =
      (List.range' 0 tokens.length).filterMap (fun k =>
        if hk : k < tokens.length ∧ k + N - 1 < tokens.length then
          (if start_ (tokens.get ⟨k, hk.1⟩) = true ∧
              end_ (tokens.get ⟨k + N - 1, hk.2⟩) = true
           then some (k, k + N - 1) else none)
        else none) := by
  show matchFixedSpansFrom start_ end_ N 0 tokens 0 = _
  rw [matchFixedSpansFrom_eq tokens N 0 hN]
  apply List.filterMap_congr
  intro k hk
  rw [fixedEmit]
  split
  next hk2 => simp [hk2.2]
  next hk2 => rfl

theorem claim5_witness :
    matchSpans ["A", "A", "B"] (fun t => t == "A") (some (fun t => t == "B"))
        0 (some 3) = [(0, 2)] ∧
    match_tokens ["A", "A", "B"] (fun t => t == "A") (some (fun t => t == "B"))
        0 (some 3) = [["A", "A", "B"]] := by
  have h := claim5_exact_length_mode ["A", "A", "B"] (fun t => t == "A")
    (fun t => t == "B") 3 (by decide)
  refine ⟨by rw [h]; decide, ?_⟩
  simp [match_tokens, matchSpans, matchFixedSpansFrom, pySlice]

end MatcherClaims3

end Lint381.Matcher

namespace Lint381.Tokenizer

section TokenizerLemmas

/-- The fold implementing `sort(key=len, reverse=True)` + first element
returns a candidate from the list, of maximal value length. -/
theorem pickLongest_aux :
    ∀ (cs : List (String × List Char)) (b : String × List Char),
      (cs.foldl (fun best x => if best.2.length < x.2.length then x else best) b
          ∈ b :: cs) ∧
      b.2.length ≤ (cs.foldl
        (fun best x => if best.2.length < x.2.length then x else best) b).2.length ∧
      ∀ x ∈ cs, x.2.length ≤ (cs.foldl
        (fun best x => if best.2.length < x.2.length then x else best) b).2.length := by
  intro cs
  induction cs with
  | nil => intro b; simp
  | cons y ys ih =>
    intro b
    rw [List.foldl_cons]
    obtain ⟨hmem, hb, hall⟩ := ih (if b.2.length < y.2.length then y else b)
    refine ⟨?_, ?_, ?_⟩
    · rcases List.mem_cons.mp hmem with heq | htail
      · rw [heq]
        split
        · exact List.mem_cons_of_mem _ (List.mem_cons_self _ _)
        · exact List.mem_cons_self _ _
      · exact List.mem_cons_of_mem _ (List.mem_cons_of_mem _ htail)
    · refine le_trans ?_ hb
      split <;> omega
    · intro x hx
      rcases List.mem_cons.mp hx with heq | htail
      · subst heq
        refine le_trans ?_ hb
        split <;> omega
      · exact hall x htail

theorem pickLongest_spec (c : String × List Char)
    (cs : List (String × List Char)) :
    pickLongest c cs ∈ c :: cs ∧
    ∀ x ∈ c :: cs, x.2.length ≤ (pickLongest c cs).2.length := by
  obtain ⟨hmem, hb, hall⟩ := pickLongest_aux cs c
  refine ⟨hmem, ?_⟩
  intro x hx
  rcases List.mem_cons.mp hx with heq | htail
  · subst heq; exact hb
  · exact hall x htail

/-- A pattern that matches a nonempty value at the remaining input
contributes that value to the candidate list. -/
theorem mem_tokenCandidates (g : String) (p : List Char → Option (List Char))
    (rem v : List Char) (hmem : (g, p) ∈ TOKEN_PATTERNS)
    (hp : p rem = some v) (hv : v ≠ []) :
    (g, v) ∈ tokenCandidates rem := by
  rw [tokenCandidates]
  refine List.mem_filterMap.mpr ⟨(g, p), hmem, ?_⟩
  show (match p rem with
    | some v => if v.isEmpty = true then none else some (g, v)
    | none => none) = some (g, v)
  rw [hp]
  simp only [List.isEmpty_iff]
  rw [if_neg hv]

/-- Conversely, every candidate comes from some pattern. -/
theorem of_mem_tokenCandidates (g : String) (v rem : List Char)
    (h : (g, v) ∈ tokenCandidates rem) :
    ∃ gp ∈ TOKEN_PATTERNS, gp.1 = g ∧ gp.2 rem = some v := by
  rw [tokenCandidates] at h
  obtain ⟨gp, hgp, heq⟩ := List.mem_filterMap.mp h
  have heq2 : (match gp.2 rem with
      | some v => if v.isEmpty = true then none else some (gp.1, v)
      | none => none) = some (g, v) := heq
  clear heq
  refine ⟨gp, hgp, ?_⟩
  rcases hm : gp.2 rem with _ | w
  · rw [hm] at heq2; simp at heq2
  · rw [hm] at heq2
    simp only [List.isEmpty_iff] at heq2
    split at heq2
    · simp at heq2
    · simp only [Option.some.injEq, Prod.mk.injEq] at heq2
      exact ⟨heq2.1, by rw [heq2.2]⟩

end TokenizerLemmas

end Lint381.Tokenizer

namespace Lint381.Tokenizer

section TokenizerClaims

/-- Claim C6: whenever `_get_next_token` reaches the regex phase (the two
special consumers declined), the emitted token's value is itself one of the
pattern matches at the cursor, and every pattern's match at the cursor is
no longer than it — the longest candidate wins.  In particular `a==b`
tokenizes to the values `a`, `==`, `b`. -/
theorem claim6_maximal_munch :
    (∀ (st : TokenizerState) (tok : Token) (st2 : TokenizerState),
      consumeString st = .ok none →
      consumeMultilineComment st = .ok none →
      getNextToken st = .ok (tok, st2) →
      (∃ gp ∈ TOKEN_PATTERNS,
        gp.2 (st.string.drop st.cursor) = some tok.value) ∧
      (∀ gp ∈ TOKEN_PATTERNS, ∀ v, gp.2 (st.string.drop st.cursor) = some v →
        v.length ≤ tok.value.length)) ∧
    (tokenize "a==b".toList).map (Except.map (List.map Token.value)) =
      some (.ok [['a'], ['=', '='], ['b']]) := by
  constructor
  · intro st tok st2 hcs hcm hgt
    rw [getNextToken, hcs, hcm] at hgt
    rcases hc : tokenCandidates (st.string.drop st.cursor) with _ | ⟨c, cs⟩
    · rw [hc] at hgt
      simp at hgt
    · rw [hc] at hgt
      simp only [Except.ok.injEq, Prod.mk.injEq] at hgt
      have hval : tok.value = (pickLongest c cs).2 := by
        rw [← hgt.1]
      obtain ⟨hmem, hmax⟩ := pickLongest_spec c cs
      constructor
      · rw [← hc] at hmem
        have hpl : pickLongest c cs =
            ((pickLongest c cs).1, (pickLongest c cs).2) := rfl
        rw [hpl] at hmem
        obtain ⟨gp, hgp, hg1, hg2⟩ := of_mem_tokenCandidates
          (pickLongest c cs).1 (pickLongest c cs).2
          (st.string.drop st.cursor) hmem
        exact ⟨gp, hgp, by rw [hg2, hval]⟩
      · intro gp hgp v hv
        by_cases hvne : v = []
        · subst hvne
          simp
        · have hcand := mem_tokenCandidates gp.1 gp.2
            (st.string.drop st.cursor) v hgp hv hvne
          rw [hc] at hcand
          rw [hval]
          exact hmax (gp.1, v) hcand
  · rw [← tokenizeF_eq]
    decide

end TokenizerClaims

end Lint381.Tokenizer

namespace Lint381.Tokenizer

section TokenizerClaims2

theorem claim6_witness :
    (∃ gp ∈ TOKEN_PATTERNS, gp.2 ['=', '=', 'b', '\n'] = some ['=', '=']) ∧
    (∀ gp ∈ TOKEN_PATTERNS, ∀ v, gp.2 ['=', '=', 'b', '\n'] = some v →
      v.length ≤ (['=', '='] : List Char).length) :=
  claim6_maximal_munch.1 ⟨"a==b\n".toList, 1, 0, 1⟩
    ⟨"binary_operator", ['=', '='], ⟨0, 1⟩, ⟨0, 2⟩⟩ ⟨"a==b\n".toList, 2, 0, 2⟩
    (by decide) (by decide) (by decide)

/-- Claim C7: for every tab-free input, `tokenize` either returns a complete
token list or fails as a whole with one of the three position-annotated
errors (unlexable character, unterminated string/character literal,
unterminated block comment); the `Except` result carries no partial token
list on failure.  A lone backtick, an unclosed `"foo`, and `/*` each fail
this way (see the witness). -/
theorem claim7_total_or_positioned_error (s : List Char) (htab : '\t' ∉ s) :
    ∃ r, tokenize s = some r ∧
      ((∃ ts, r = .ok ts) ∨
       (∃ p, r = .error (.unlexable p)) ∨
       (∃ p, r = .error (.unterminatedStringLiteral p)) ∨
       (∃ p, r = .error (.unterminatedComment p))) := by
  refine ⟨tokenizeLoop ⟨s ++ ['\n'], 0, 0, 0⟩, ?_, ?_⟩
  · rw [tokenize, if_neg htab]
  · cases hres : tokenizeLoop ⟨s ++ ['\n'], 0, 0, 0⟩ with
    | error e =>
      cases e with
      | unlexable p => exact Or.inr (Or.inl ⟨p, rfl⟩)
      | unterminatedStringLiteral p => exact Or.inr (Or.inr (Or.inl ⟨p, rfl⟩))
      | unterminatedComment p => exact Or.inr (Or.inr (Or.inr ⟨p, rfl⟩))
    | ok ts => exact Or.inl ⟨ts, rfl⟩

theorem claim7_witness :
    (∃ r, tokenize ['`'] = some r ∧
      ((∃ ts, r = .ok ts) ∨
       (∃ p, r = .error (.unlexable p)) ∨
       (∃ p, r = .error (.unterminatedStringLiteral p)) ∨
       (∃ p, r = .error (.unterminatedComment p)))) ∧
    tokenize ['`'] = some (.error (.unlexable ⟨0, 0⟩)) ∧
    tokenize ['"', 'f', 'o', 'o'] =
      some (.error (.unterminatedStringLiteral ⟨1, 0⟩)) ∧
    tokenize ['/', '*'] = some (.error (.unterminatedComment ⟨1, 0⟩)) :=
  ⟨claim7_total_or_positioned_error ['`'] (by decide),
   by rw [← tokenizeF_eq]; decide,
   by rw [← tokenizeF_eq]; decide,
   by rw [← tokenizeF_eq]; decide⟩

/-- Claim C8: positions are zero-indexed; consuming a newline increments
the row and resets the column to zero, anything else increments the column;
a token's `start`/`end` are its first and last characters inclusively.  In
particular `int main() {\n}\n` gives `int` spanning (0,0)-(0,2) and `}`
spanning (1,0)-(1,0). -/
theorem claim8_positions :
    (∀ st : TokenizerState, advanceCursor st =
      if st.string.get? st.cursor = some '\n' then
        { string := st.string, cursor := st.cursor + 1, row := st.row + 1,
          column := 0 }
      else
        { string := st.string, cursor := st.cursor + 1, row := st.row,
          column := st.column + 1 }) ∧
    tokenize "int main() \x7b\n\x7d\n".toList =
      some (.ok [⟨"keyword", ['i', 'n', 't'], ⟨0, 0⟩, ⟨0, 2⟩⟩,
        ⟨"identifier", ['m', 'a', 'i', 'n'], ⟨0, 4⟩, ⟨0, 7⟩⟩,
        ⟨"grouping", ['('], ⟨0, 8⟩, ⟨0, 8⟩⟩,
        ⟨"grouping", [')'], ⟨0, 9⟩, ⟨0, 9⟩⟩,
        ⟨"grouping", ['{'], ⟨0, 11⟩, ⟨0, 11⟩⟩,
        ⟨"grouping", ['}'], ⟨1, 0⟩, ⟨1, 0⟩⟩]) :=
  ⟨fun st => rfl, by rw [← tokenizeF_eq]; decide⟩

end TokenizerClaims2

end Lint381.Tokenizer

namespace Lint381.Tokenizer

section TokenizerClaims3

/-- Claim C9: the identifier pattern accepts an optional leading `#`
followed by a letter or underscore and then greedily any further
alphanumerics/underscores — including the single-character case.  In
particular `x` tokenizes to the single identifier token `x` and `#define`
to the single identifier token `#define`. -/
theorem claim9_identifier_pattern :
    (∀ (c : Char) (rest : List Char), isIdentStartChar c = true →
      pattern_identifier (c :: rest) =
        some (c :: rest.takeWhile isIdentChar)) ∧
    (∀ (c : Char) (rest : List Char), isIdentStartChar c = true →
      pattern_identifier ('#' :: c :: rest) =
        some ('#' :: c :: rest.takeWhile isIdentChar)) ∧
    tokenize ['x'] = some (.ok [⟨"identifier", ['x'], ⟨0, 0⟩, ⟨0, 0⟩⟩]) ∧
    tokenize "#define".toList =
      some (.ok [⟨"identifier", "#define".toList, ⟨0, 0⟩, ⟨0, 6⟩⟩]) := by
  refine ⟨?_, ?_, by rw [← tokenizeF_eq]; decide, by rw [← tokenizeF_eq]; decide⟩
  · intro c rest hc
    have hch : c ≠ '#' := by
      intro h
      subst h
      simp [isIdentStartChar] at hc
    show (if c = '#' then
        (match rest with
         | [] => none
         | c2 :: rest2 =>
           if isIdentStartChar c2 then
             some ('#' :: c2 :: rest2.takeWhile isIdentChar)
           else none)
      else if isIdentStartChar c then some (c :: rest.takeWhile isIdentChar)
      else none) = some (c :: rest.takeWhile isIdentChar)
    rw [if_neg hch, if_pos hc]
  · intro c rest hc
    show (if ('#' : Char) = '#' then
        (if isIdentStartChar c then
          some ('#' :: c :: rest.takeWhile isIdentChar)
        else none)
      else if isIdentStartChar '#' then
        some ('#' :: (c :: rest).takeWhile isIdentChar)
      else none) = some ('#' :: c :: rest.takeWhile isIdentChar)
    rw [if_pos rfl, if_pos hc]

theorem claim9_witness :
    pattern_identifier ['x'] =
      some ('x' :: List.takeWhile isIdentChar []) ∧
    pattern_identifier ('#' :: 'd' :: "efine".toList) =
      some ('#' :: 'd' :: List.takeWhile isIdentChar "efine".toList) :=
  ⟨claim9_identifier_pattern.1 'x' [] (by decide),
   claim9_identifier_pattern.2.1 'd' "efine".toList (by decide)⟩

/-- Claim C10: because the line-comment pattern `//.+` demands at least one
non-newline character after the slashes, `//` followed by a newline or end
of input produces no comment candidate; the two slashes then tokenize as
two one-character `binary_operator` tokens `/`, `/`, while `//x` produces a
single comment token to the end of the line. -/
theorem claim10_line_comment_requires_content :
    (∀ rest : List Char, pattern_comment ('/' :: '/' :: rest) =
      match rest with
      | [] => none
      | c :: r =>
        if c == '\n' then none
        else some ('/' :: '/' :: (c :: r).takeWhile (fun ch => ch != '\n'))) ∧
    tokenize "//".toList =
      some (.ok [⟨"binary_operator", ['/'], ⟨0, 0⟩, ⟨0, 0⟩⟩,
        ⟨"binary_operator", ['/'], ⟨0, 1⟩, ⟨0, 1⟩⟩]) ∧
    tokenize "//x".toList =
      some (.ok [⟨"comment", ['/', '/', 'x'], ⟨0, 0⟩, ⟨0, 2⟩⟩]) := by
  refine ⟨?_, by rw [← tokenizeF_eq]; decide, by rw [← tokenizeF_eq]; decide⟩
  intro rest
  rcases rest with _ | ⟨c, r⟩
  · rfl
  · rfl

end TokenizerClaims3

end Lint381.Tokenizer
